import Mathlib

/-!
Verification of the Ultimate Tic-Tac-Toe repository: a shallow embedding of
the game rules engine (sub-board and main-board win/draw evaluation, move
legality and routing), the two duplicated state-machine drivers (the local/AI
click handler in the game component and the room-scoped API move handler),
the room synchronization handlers (join / reset), and the AI's depth-limited
minimax with alpha-beta pruning together with its heuristic evaluator.

JavaScript array semantics are modelled explicitly: an out-of-range index
read yields `undefined`, which is distinct from `null`; we embed a cell as
`Option Player` (`none` = null) and an array read as `Option (Option Player)`
(`none` = undefined, `some none` = null).
-/

/-- A player's mark, `"X"` or `"O"` in the source. -/
inductive Player where
  | X
  | O
deriving DecidableEq, Repr

/-- The resolved status of a board: a winner or `"draw"`. -/
inductive Status where
  | X
  | O
  | draw
deriving DecidableEq, Repr

def Player.toStatus : Player → Status
  | .X => .X
  | .O => .O

/-- `player === "X" ? "O" : "X"`. -/
def Player.other : Player → Player
  | .X => .O
  | .O => .X

/-- A cell of a sub-board: `null`, `"X"` or `"O"`. -/
abbrev Cell := Option Player

/-- An entry of the main board: `null`, `"X"`, `"O"` or `"draw"`. -/
abbrev MCell := Option Status

abbrev SubBoard := List Cell
abbrev Boards := List SubBoard
abbrev MainBoard := List MCell

/-- JavaScript array read at a (possibly negative or too large) index:
`none` models `undefined`. -/
def jsGet (l : List α) (i : Int) : Option α :=
  if h : 0 ≤ i ∧ i.toNat < l.length then some (l.get ⟨i.toNat, h.2⟩) else none

/-- Two-level JavaScript array read, `l[i][j]`, used only where the source
has already established that `l[i]` is defined. -/
def jsGet2 (l : List (List α)) (i j : Int) : Option α :=
  match jsGet l i with
  | some inner => jsGet inner j
  | none => none

/-- JavaScript array write `l[i] = x`; the source only writes in-range
indices (after its guards), where this agrees with `List.set`. -/
def jsSet (l : List α) (i : Int) (x : α) : List α :=
  l.set i.toNat x

/-- `players.indexOf(id)`: the index of the first occurrence, `-1` if absent. -/
def jsIndexOf (l : List String) (x : String) : Int :=
  if x ∈ l then (l.indexOf x : Int) else -1

/-- The 8 fixed `WINNING_COMBINATIONS` (3 rows, 3 columns, 2 diagonals),
in the source's order. -/
def WINNING_COMBINATIONS : List (Nat × Nat × Nat) :=
  [(0, 1, 2), (3, 4, 5), (6, 7, 8),
   (0, 3, 6), (1, 4, 7), (2, 5, 8),
   (0, 4, 8), (2, 4, 6)]

/-- Read entry `i` of a 9-entry board (all boards in the program have
exactly 9 entries, so the `none` default is never hit in-range). -/
def cellAt (b : List (Option α)) (i : Nat) : Option α :=
  b.getD i none

/-- The winning-triple scan of `checkBoardWinner`:
`if (board[a] && board[a] === board[b] && board[a] === board[c]) return board[a]`,
taken over a list of triples in order.  A `null` (falsy) entry never matches;
any non-null value — including `"draw"` on the main board — can. -/
def findTriple [DecidableEq α] (b : List (Option α)) :
    List (Nat × Nat × Nat) → Option α
  | [] => none
  | (i, j, k) :: rest =>
    match cellAt b i with
    | some v =>
      if cellAt b j = some v ∧ cellAt b k = some v then some v
      else findTriple b rest
    | none => findTriple b rest

/-- `checkBoardWinner` applied to a sub-board of cells: first matching
triple's mark, else `"draw"` when every cell is filled, else `null`. -/
def checkBoardWinner (b : SubBoard) : Option Status :=
  match findTriple b WINNING_COMBINATIONS with
  | some p => some p.toStatus
  | none => if b.all (fun c => c ≠ none) then some .draw else none

/-- `checkBoardWinner` applied to the main board, whose entries already
range over `{null, "X", "O", "draw"}`; a triple of equal non-null entries
(a `"draw"` triple included) is returned as found. -/
def checkMainWinner (b : MainBoard) : Option Status :=
  match findTriple b WINNING_COMBINATIONS with
  | some s => some s
  | none => if b.all (fun c => c ≠ none) then some .draw else none

/-- The game-state fields shared by both drivers. -/
structure GameState where
  boards : Boards
  mainBoard : MainBoard
  currentPlayer : Player
  nextBoardIndex : Int
  gameOver : Bool
  winner : Option Status
  lastMove : Option (Int × Int)
deriving DecidableEq, Repr

/-- A multiplayer room as stored in the server-side `gameRooms` registry. -/
structure Room where
  id : String
  players : List String
  spectators : List String
  game : GameState
  lastUpdateTime : Int
deriving DecidableEq, Repr

def emptyBoards : Boards := List.replicate 9 (List.replicate 9 none)

/-- The fresh game state used both by the component's reset and by the
room create/reset handlers. -/
def initialGameState : GameState :=
  { boards := emptyBoards
    mainBoard := List.replicate 9 none
    currentPlayer := .X
    nextBoardIndex := -1
    gameOver := false
    winner := none
    lastMove := none }

/-- The room created by the create endpoint: host as sole player, fresh game. -/
def createRoom (roomId playerId : String) (now : Int) : Room :=
  { id := roomId
    players := [playerId]
    spectators := []
    game := initialGameState
    lastUpdateTime := now }

/-- `isLegal(state, boardIndex, cellIndex)` as the specification states it
(§4.2): the game is not over; if `nextBoardIndex` is not `-1` and that
sub-board is unresolved then `boardIndex` must equal it; the target
sub-board's status is empty; the target cell is empty. -/
def isLegal (s : GameState) (bi ci : Int) : Bool :=
  !s.gameOver &&
    (if s.nextBoardIndex ≠ -1 ∧ jsGet s.mainBoard s.nextBoardIndex = some none
      then bi = s.nextBoardIndex else true) &&
    jsGet s.mainBoard bi = some none &&
    jsGet2 s.boards bi ci = some none

/-- The local/AI driver's `handleMove` (game component): silently ignores
illegal moves; on success sets the cell, freezes a resolved sub-board, and
either ends the game (early return, leaving `currentPlayer` and
`nextBoardIndex` untouched) or routes via the PRE-move `mainBoard` and flips
the player. -/
def handleMove (s : GameState) (bi ci : Int) : GameState :=
  if s.gameOver then s
  else if s.nextBoardIndex ≠ -1 ∧ s.nextBoardIndex ≠ bi ∧
      jsGet s.mainBoard s.nextBoardIndex = some none then s
  else if jsGet s.mainBoard bi ≠ some none then s
  else if jsGet2 s.boards bi ci ≠ some none then s
  else
    let newB := jsSet ((jsGet s.boards bi).getD []) ci (some s.currentPlayer)
    let newBoards := jsSet s.boards bi newB
    match checkBoardWinner newB with
    | some bw =>
      let newMain := jsSet s.mainBoard bi (some bw)
      match checkMainWinner newMain with
      | some gw =>
        { s with boards := newBoards, mainBoard := newMain,
                 winner := some gw, gameOver := true, lastMove := some (bi, ci) }
      | none =>
        { s with boards := newBoards, mainBoard := newMain,
                 nextBoardIndex :=
                   if jsGet s.mainBoard ci = some none then ci else -1,
                 currentPlayer := s.currentPlayer.other,
                 lastMove := some (bi, ci) }
    | none =>
      { s with boards := newBoards,
               nextBoardIndex :=
                 if jsGet s.mainBoard ci = some none then ci else -1,
               currentPlayer := s.currentPlayer.other,
               lastMove := some (bi, ci) }

/-- The mutation performed by `handleMakeMove` once every guard has passed:
set the cell, freeze the sub-board if it resolved (re-checking the game
winner only in that case), route on the POST-move `mainBoard`, flip the
player, run the all-resolved draw check, and record `lastMove`. -/
def applyMoveCore (s : GameState) (bi ci : Int) : GameState :=
  let newB := jsSet ((jsGet s.boards bi).getD []) ci (some s.currentPlayer)
  let newBoards := jsSet s.boards bi newB
  let step :=
    match checkBoardWinner newB with
    | some bw =>
      let m := jsSet s.mainBoard bi (some bw)
      match checkMainWinner m with
      | some gw => (m, true, some gw)
      | none => (m, s.gameOver, s.winner)
    | none => (s.mainBoard, s.gameOver, s.winner)
  let main1 := step.1
  let go1 := step.2.1
  let win1 := step.2.2
  let nbi1 := if jsGet main1 ci = some none then ci else -1
  let final :=
    if !go1 ∧ main1.all (fun c => c ≠ none) then (true, some Status.draw)
    else (go1, win1)
  { boards := newBoards
    mainBoard := main1
    currentPlayer := s.currentPlayer.other
    nextBoardIndex := nbi1
    gameOver := final.1
    winner := final.2
    lastMove := some (bi, ci) }

/-- The room driver's `handleMakeMove` (API route): turn-ownership check,
the four legality guards (each an early error return before any mutation),
then the `applyMoveCore` mutation and timestamp update. -/
def handleMakeMove (room : Room) (playerId : String) (bi ci : Int)
    (now : Int) : Except String Room :=
  let s := room.game
  let pIdx := jsIndexOf room.players playerId
  if pIdx = -1 ∨ (pIdx = 0 ∧ s.currentPlayer ≠ .X) ∨
      (pIdx = 1 ∧ s.currentPlayer ≠ .O) then
    .error "Not your turn"
  else if s.gameOver then .error "Game is over"
  else if s.nextBoardIndex ≠ -1 ∧ s.nextBoardIndex ≠ bi ∧
      jsGet s.mainBoard s.nextBoardIndex = some none then
    .error "Invalid board"
  else if jsGet s.mainBoard bi ≠ some none then .error "Board already won"
  else if jsGet2 s.boards bi ci ≠ some none then .error "Cell already filled"
  else
    .ok { room with game := applyMoveCore s bi ci, lastUpdateTime := now }

/-- The room driver's `handleResetGame`: host-only; restores a fresh game
state and updates the timestamp. -/
def handleResetGame (room : Room) (playerId : String) (now : Int) :
    Except String Room :=
  if jsGet room.players 0 ≠ some playerId then
    .error "Only host can reset the game"
  else
    .ok { room with game := initialGameState, lastUpdateTime := now }

/-- The room driver's `handleJoinRoom`: idempotent re-join for recorded
players; a full room appends the newcomer to `spectators` WITHOUT touching
`lastUpdateTime`; otherwise the newcomer becomes player `"O"` and the
timestamp is updated.  Returns the room and the assigned symbol string. -/
def handleJoinRoom (room : Room) (playerId : String) (now : Int) :
    Room × String :=
  if playerId ∈ room.players then
    (room, if jsIndexOf room.players playerId = 0 then "X" else "O")
  else if 2 ≤ room.players.length then
    (if playerId ∈ room.spectators then room
     else { room with spectators := room.spectators ++ [playerId] },
     "spectator")
  else
    ({ room with players := room.players ++ [playerId],
                 lastUpdateTime := now }, "O")

/-- Rooms reachable through the server-side handlers: creation, joins,
accepted moves and accepted resets. -/
inductive Reachable : Room → Prop where
  | create (rid pid : String) (now : Int) : Reachable (createRoom rid pid now)
  | join {r : Room} (pid : String) (now : Int) :
      Reachable r → Reachable (handleJoinRoom r pid now).1
  | move {r r' : Room} (pid : String) (bi ci now : Int) :
      Reachable r → handleMakeMove r pid bi ci now = .ok r' → Reachable r'
  | reset {r r' : Room} (pid : String) (now : Int) :
      Reachable r → handleResetGame r pid now = .ok r' → Reachable r'

/-- The symbol the room protocol assigns to a participant: `"X"` for the
first recorded player, `"O"` for the second, nothing for anyone else
(spectators included) — the participant-to-symbol mapping of §4.6. -/
def playerSymbol (room : Room) (pid : String) : Option Player :=
  if jsIndexOf room.players pid = 0 then some .X
  else if jsIndexOf room.players pid = 1 then some .O
  else none

/-- `mb` contains a full line of value `v` among the 8 winning triples. -/
def hasLine (mb : MainBoard) (v : Status) : Bool :=
  WINNING_COMBINATIONS.any (fun t =>
    cellAt mb t.1 = some v ∧ cellAt mb t.2.1 = some v ∧ cellAt mb t.2.2 = some v)

/-! ### The adversarial search engine (game component) -/

/-- Scores with the two IEEE infinities used as initial alpha/beta bounds:
`⊥` models `Number.NEGATIVE_INFINITY`, `⊤` models `Number.POSITIVE_INFINITY`. -/
abbrev EInt := WithBot (WithTop ℤ)

/-- A finite score as an extended score. -/
def toE (z : ℤ) : EInt := ((z : WithTop ℤ) : WithBot (WithTop ℤ))

/-- `evaluateBoard(player)`: the static heuristic.  Terminal main board:
±1000 or 0; otherwise each main-board line with only own marks (draws and
opponent absent) adds 10 per mark, only opponent marks subtracts 10 per
mark, and every unresolved sub-board contributes the same line count with
weight 1. -/
def evaluateBoard (bs : Boards) (mb : MainBoard) (player : Player) : ℤ :=
  let opp := player.other
  match checkMainWinner mb with
  | some s =>
    if s = player.toStatus then 1000
    else if s = opp.toStatus then -1000
    else 0
  | none =>
    let mainScore : ℤ := (WINNING_COMBINATIONS.map (fun t =>
      let line := [cellAt mb t.1, cellAt mb t.2.1, cellAt mb t.2.2]
      let pc : ℤ := line.countP (fun c => c = some player.toStatus)
      let oc : ℤ := line.countP (fun c => c = some opp.toStatus)
      (if 0 < pc ∧ oc = 0 then pc * 10 else 0) +
        (if 0 < oc ∧ pc = 0 then -(oc * 10) else 0))).sum
    let subScore : ℤ := ((List.range 9).map (fun bIdx =>
      if cellAt mb bIdx = none then
        (WINNING_COMBINATIONS.map (fun t =>
          let b := bs.getD bIdx []
          let line := [cellAt b t.1, cellAt b t.2.1, cellAt b t.2.2]
          let pc : ℤ := line.countP (fun c => c = some player)
          let oc : ℤ := line.countP (fun c => c = some opp)
          (if 0 < pc ∧ oc = 0 then pc else 0) +
            (if 0 < oc ∧ pc = 0 then -oc else 0))).sum
      else 0)).sum
    mainScore + subScore

/-- The candidate cells of one sub-board (`tempBoards[bi][ci] === null`). -/
def validMovesFor (nb : Boards) (bi : Int) : List (Int × Int) :=
  (List.range 9).filterMap (fun ci =>
    if jsGet2 nb bi (ci : Int) = some none then some (bi, (ci : Int)) else none)

/-- Candidate moves over every unresolved sub-board, in the source's
row-major generation order. -/
def allValidMoves (nb : Boards) (nm : MainBoard) : List (Int × Int) :=
  (List.range 9).flatMap (fun bi =>
    if jsGet nm (bi : Int) = some none then validMovesFor nb (bi : Int) else [])

/-- `minimax`'s move generation: if the inherited `nextBoardIndex` points at
a still-unresolved sub-board, only that board's empty cells; otherwise all
empty cells of every unresolved sub-board. -/
def validMoves (nb : Boards) (nm : MainBoard) (nbi : Int) : List (Int × Int) :=
  if nbi ≠ -1 then
    if jsGet nm nbi = some none then validMovesFor nb nbi
    else allValidMoves nb nm
  else allValidMoves nb nm

/-- One simulated move inside `minimax`: place `mark`, freeze the sub-board
if it resolved, and route on the POST-move simulated main board. -/
def simApply (nb : Boards) (nm : MainBoard) (mark : Player) (m : Int × Int) :
    Boards × MainBoard × Int :=
  let newB := jsSet ((jsGet nb m.1).getD []) m.2 (some mark)
  let newBoards := jsSet nb m.1 newB
  let newMain :=
    match checkBoardWinner newB with
    | some bw => jsSet nm m.1 (some bw)
    | none => nm
  (newBoards, newMain, if jsGet newMain m.2 = some none then m.2 else -1)

/-- The maximizing loop of `minimax`: accumulator is
(maxEval, bestMove, alpha, broken); `broken` records the `break` taken once
`beta <= alpha` after a child. -/
def maxFold (ch : (Int × Int) → EInt → EInt) (be : EInt) :
    List (Int × Int) → EInt × Option (Int × Int) × EInt × Bool →
    EInt × Option (Int × Int) × EInt × Bool
  | [], acc => acc
  | m :: rest, acc =>
    if acc.2.2.2 then acc
    else
      let r := ch m acc.2.2.1
      let best := if acc.1 < r then r else acc.1
      let bmv := if acc.1 < r then some m else acc.2.1
      let a := max acc.2.2.1 r
      maxFold ch be rest (best, bmv, a, decide (be ≤ a))

/-- The minimizing loop of `minimax`: accumulator is
(minEval, bestMove, beta, broken). -/
def minFold (ch : (Int × Int) → EInt → EInt) (al : EInt) :
    List (Int × Int) → EInt × Option (Int × Int) × EInt × Bool →
    EInt × Option (Int × Int) × EInt × Bool
  | [], acc => acc
  | m :: rest, acc =>
    if acc.2.2.2 then acc
    else
      let r := ch m acc.2.2.1
      let best := if r < acc.1 then r else acc.1
      let bmv := if r < acc.1 then some m else acc.2.1
      let b := min acc.2.2.1 r
      minFold ch al rest (best, bmv, b, decide (b ≤ al))

/-- The component's `minimax` with alpha-beta pruning.  NOTE the faithful
closure-capture: the `depth === 0` leaf evaluates `evaluateBoard(player)`,
which reads the component's render-time `boards`/`mainBoard` — the ROOT
position (`rootB`, `rootM`) — not the node's simulated state. -/
def minimax (rootB : Boards) (rootM : MainBoard) (player : Player) :
    Nat → Bool → Boards → MainBoard → Int → EInt → EInt →
    EInt × Option (Int × Int)
  | 0, _, _, nm, _, _, _ =>
    match checkMainWinner nm with
    | some s =>
      if s = player.toStatus then (toE (100 + (0 : Nat)), none)
      else if s = player.other.toStatus then
        (toE (-(100 + ((0 : Nat) : ℤ))), none)
      else (toE 0, none)
    | none => (toE (evaluateBoard rootB rootM player), none)
  | f + 1, isMax, nb, nm, nbi, al, be =>
    match checkMainWinner nm with
    | some s =>
      if s = player.toStatus then (toE (100 + (f + 1 : Nat)), none)
      else if s = player.other.toStatus then
        (toE (-(100 + ((f + 1 : Nat) : ℤ))), none)
      else (toE 0, none)
    | none =>
      let moves := validMoves nb nm nbi
      if moves = [] then (toE 0, none)
      else if isMax then
        let res := maxFold (fun m a =>
            (minimax rootB rootM player f false (simApply nb nm player m).1
              (simApply nb nm player m).2.1 (simApply nb nm player m).2.2
              a be).1)
          be moves (⊥, none, al, false)
        (res.1, res.2.1)
      else
        let res := minFold (fun m b =>
            (minimax rootB rootM player f true
              (simApply nb nm player.other m).1
              (simApply nb nm player.other m).2.1
              (simApply nb nm player.other m).2.2 al b).1)
          al moves (⊤, none, be, false)
        (res.1, res.2.1)

/-- Modelled from the spec (§4.5 and §8 "alpha-beta result equivalence"):
the unpruned full minimax over the same move tree, with the same terminal
scores and the same (root-closure) depth-limit leaf evaluation, maximizing
and minimizing over all children with no alpha/beta window. -/
def fullMinimax (rootB : Boards) (rootM : MainBoard) (player : Player) :
    Nat → Bool → Boards → MainBoard → Int → ℤ
  | 0, _, _, nm, _ =>
    match checkMainWinner nm with
    | some s =>
      if s = player.toStatus then 100 + ((0 : Nat) : ℤ)
      else if s = player.other.toStatus then -(100 + ((0 : Nat) : ℤ))
      else 0
    | none => evaluateBoard rootB rootM player
  | f + 1, isMax, nb, nm, nbi =>
    match checkMainWinner nm with
    | some s =>
      if s = player.toStatus then 100 + ((f + 1 : Nat) : ℤ)
      else if s = player.other.toStatus then -(100 + ((f + 1 : Nat) : ℤ))
      else 0
    | none =>
      match validMoves nb nm nbi with
        | [] => 0
        | m :: rest =>
          if isMax then
            rest.foldl (fun acc mv =>
              max acc (fullMinimax rootB rootM player f false
                (simApply nb nm player mv).1 (simApply nb nm player mv).2.1
                (simApply nb nm player mv).2.2))
              (fullMinimax rootB rootM player f false
                (simApply nb nm player m).1 (simApply nb nm player m).2.1
                (simApply nb nm player m).2.2)
          else
            rest.foldl (fun acc mv =>
              min acc (fullMinimax rootB rootM player f true
                (simApply nb nm player.other mv).1
                (simApply nb nm player.other mv).2.1
                (simApply nb nm player.other mv).2.2))
              (fullMinimax rootB rootM player f true
                (simApply nb nm player.other m).1
                (simApply nb nm player.other m).2.1
                (simApply nb nm player.other m).2.2)

/-- Fail-soft alpha-beta window conditions relating a pruned result `r` to
the unpruned value `v` on the window (`al`, `be`): a fail-low result is an
upper bound on `v`, a fail-high result a lower bound, and an in-window
result is exact. -/
def KM (r : EInt) (v : ℤ) (al be : EInt) : Prop :=
  (r ≤ al → toE v ≤ r) ∧ (be ≤ r → r ≤ toE v) ∧
    (al < r → r < be → r = toE v)

/-- Maximum of a list of extended scores (`⊥` for the empty list). -/
def maxE (l : List EInt) : EInt := l.foldr max ⊥

/-- Minimum of a list of extended scores (`⊤` for the empty list). -/
def minE (l : List EInt) : EInt := l.foldr min ⊤

/-! ### Concrete states used by counterexamples and witnesses -/

def empty9 : SubBoard := List.replicate 9 none

/-- The two-player room after host `"a"` creates and `"b"` joins. -/
def roomStart : Room := (handleJoinRoom (createRoom "R" "a" 0) "b" 0).1

/-- The room reached from `roomStart` by the legal moves X(4,1), O(1,4),
X(4,7), O(7,4); X to move, `nextBoardIndex = 4`, and X at cells 1 and 7 of
sub-board 4, so X(4,4) completes a line IN the routed-to board itself. -/
def rm4 : Room :=
  { id := "R"
    players := ["a", "b"]
    spectators := []
    game :=
      { boards :=
          [empty9,
           [none, none, none, none, some .O, none, none, none, none],
           empty9, empty9,
           [none, some .X, none, none, none, none, none, some .X, none],
           empty9, empty9,
           [none, none, none, none, some .O, none, none, none, none],
           empty9]
        mainBoard := List.replicate 9 none
        currentPlayer := .X
        nextBoardIndex := 4
        gameOver := false
        winner := none
        lastMove := some (7, 4) }
    lastUpdateTime := 4 }

/-- A room where sub-boards 0 and 1 are recorded drawn, sub-board 2 is one
X away from a draw, and the other sub-boards are untouched; X to move. -/
def roomC3 : Room :=
  { id := "R"
    players := ["a", "b"]
    spectators := []
    game :=
      { boards :=
          [[some .X, some .X, some .O, some .O, some .O, some .X,
            some .X, some .O, some .X],
           [some .O, some .X, some .X, some .X, some .O, some .O,
            some .O, some .X, some .X],
           [some .X, some .O, some .X, some .X, some .O, some .O,
            some .O, some .X, none],
           empty9, empty9, empty9, empty9, empty9, empty9]
        mainBoard := [some .draw, some .draw, none, none, none, none,
                      none, none, none]
        currentPlayer := .X
        nextBoardIndex := -1
        gameOver := false
        winner := none
        lastMove := none }
    lastUpdateTime := 8 }

/-- A full room (two players) with timestamp 5, about to receive a
spectator join. -/
def roomC9 : Room :=
  { id := "R"
    players := ["a", "b"]
    spectators := []
    game := initialGameState
    lastUpdateTime := 5 }

/-- The root position of the C2 failing input: sub-board 4 is full except
its center, the rest of the position is empty, and the active board is 4 —
the AI has exactly one candidate move, (4,4). -/
def rootB2 : Boards :=
  jsSet emptyBoards 4
    [some .X, some .O, some .X, some .O, none, some .O, some .X, some .O, some .X]

def rootM2 : MainBoard := List.replicate 9 none

/-- The simulated state after the single candidate move (4,4): X completes
the main diagonal of sub-board 4. -/
def childB2 : Boards :=
  jsSet rootB2 4
    [some .X, some .O, some .X, some .O, some .X, some .O, some .X, some .O, some .X]

def childM2 : MainBoard := jsSet rootM2 4 (some .X)

/-- The room produced by `handleMakeMove (createRoom "R" "a" 0) "a" 4 4 1`:
X has played the center cell of the center board. -/
def roomScn : Room :=
  { id := "R"
    players := ["a"]
    spectators := []
    game :=
      { boards := jsSet emptyBoards 4
          [none, none, none, none, some .X, none, none, none, none]
        mainBoard := List.replicate 9 none
        currentPlayer := .O
        nextBoardIndex := 4
        gameOver := false
        winner := none
        lastMove := some (4, 4) }
    lastUpdateTime := 1 }

/-! ### Basic lemmas about the JavaScript array model -/

theorem jsGet_bounds {α : Type _} {l : List α} {i : Int} {x : α}
    (h : jsGet l i = some x) : 0 ≤ i ∧ i.toNat < l.length := by
  unfold jsGet at h
  split at h
  · next h' => exact h'
  · cases h

theorem jsGet_mem {α : Type _} {l : List α} {i : Int} {x : α}
    (h : jsGet l i = some x) : x ∈ l := by
  unfold jsGet at h
  split at h
  · cases h; exact List.get_mem ..
  · cases h

theorem jsGet_of_not_bounds {α : Type _} {l : List α} {i : Int}
    (h : ¬(0 ≤ i ∧ i.toNat < l.length)) : jsGet l i = none := by
  unfold jsGet
  exact dif_neg h

theorem length_jsSet {α : Type _} (l : List α) (i : Int) (x : α) :
    (jsSet l i x).length = l.length := by
  unfold jsSet
  exact List.length_set l ..

theorem jsGet_jsSet_other {α : Type _} {l : List α} {i j : Int} {x : α}
    (h : i.toNat ≠ j.toNat) : jsGet (jsSet l i x) j = jsGet l j := by
  unfold jsGet jsSet
  simp only [List.length_set]
  split
  · next hj =>
    simp only [List.get_eq_getElem]
    rw [List.getElem_set_ne h]
  · rfl

theorem jsGet_jsSet_self {α : Type _} {l : List α} {i : Int} {x : α}
    (h0 : 0 ≤ i) (h : i.toNat < l.length) : jsGet (jsSet l i x) i = some x := by
  unfold jsGet jsSet
  rw [dif_pos ⟨h0, by simpa using h⟩]
  simp only [List.get_eq_getElem, List.getElem_set_self]

theorem isLegal_eq_false_iff {s : GameState} {bi ci : Int} :
    isLegal s bi ci = false ↔
      (s.gameOver = true ∨
        (s.nextBoardIndex ≠ -1 ∧ jsGet s.mainBoard s.nextBoardIndex = some none ∧
          bi ≠ s.nextBoardIndex) ∨
        jsGet s.mainBoard bi ≠ some none ∨
        jsGet2 s.boards bi ci ≠ some none) := by
  unfold isLegal
  by_cases hgo : s.gameOver = true <;>
    by_cases hc : s.nextBoardIndex ≠ -1 ∧ jsGet s.mainBoard s.nextBoardIndex = some none <;>
      simp [hgo, hc] <;> tauto

theorem jsIndexOf_cases (l : List String) (pid : String) (h : l.length ≤ 2) :
    jsIndexOf l pid = -1 ∨ jsIndexOf l pid = 0 ∨ jsIndexOf l pid = 1 := by
  unfold jsIndexOf
  split
  · next hm =>
    have := List.indexOf_lt_length.mpr hm
    omega
  · exact Or.inl rfl

theorem handleJoinRoom_game (room : Room) (pid : String) (now : Int) :
    (handleJoinRoom room pid now).1.game = room.game := by
  unfold handleJoinRoom
  split_ifs <;> rfl

theorem isLegal_eq_true_iff {s : GameState} {bi ci : Int} :
    isLegal s bi ci = true ↔
      s.gameOver = false ∧
      (s.nextBoardIndex ≠ -1 ∧ jsGet s.mainBoard s.nextBoardIndex = some none →
        bi = s.nextBoardIndex) ∧
      jsGet s.mainBoard bi = some none ∧
      jsGet2 s.boards bi ci = some none := by
  unfold isLegal
  by_cases hc : s.nextBoardIndex ≠ -1 ∧ jsGet s.mainBoard s.nextBoardIndex = some none <;>
    simp [hc] <;> tauto

theorem int_eq_of_toNat_eq {i j : Int} (h0 : 0 ≤ i) (h1 : 0 ≤ j)
    (h : i.toNat = j.toNat) : i = j := by omega

/-! ### Success shape of the room move handler -/

theorem handleMakeMove_ok_elim {room : Room} {pid : String} {bi ci now : Int}
    {r' : Room} (h : handleMakeMove room pid bi ci now = .ok r') :
    r' = { room with game := applyMoveCore room.game bi ci,
                     lastUpdateTime := now } ∧
      room.game.gameOver = false ∧
      jsGet room.game.mainBoard bi = some none ∧
      jsGet2 room.game.boards bi ci = some none := by
  unfold handleMakeMove at h
  dsimp only at h
  split_ifs at h with h1 h2 h3 h4 h5
  cases h
  exact ⟨rfl, by simpa using h2, not_not.mp h4, not_not.mp h5⟩

theorem applyMoveCore_gameOver_iff {s : GameState} {bi ci : Int}
    (hgo : s.gameOver = false) (hwin : s.winner = none) :
    ((applyMoveCore s bi ci).gameOver = true ↔
      (applyMoveCore s bi ci).winner ≠ none) := by
  unfold applyMoveCore
  dsimp only
  rcases checkBoardWinner (jsSet ((jsGet s.boards bi).getD []) ci (some s.currentPlayer)) with _ | bw
  · dsimp only
    split_ifs <;> simp [hgo, hwin]
  · dsimp only
    rcases checkMainWinner (jsSet s.mainBoard bi (some bw)) with _ | gw
    · dsimp only
      split_ifs <;> simp [hgo, hwin]
    · dsimp only
      split_ifs <;> simp

theorem applyMoveCore_boards (s : GameState) (bi ci : Int) :
    (applyMoveCore s bi ci).boards =
      jsSet s.boards bi (jsSet ((jsGet s.boards bi).getD []) ci
        (some s.currentPlayer)) := rfl

theorem applyMoveCore_mainBoard_cases (s : GameState) (bi ci : Int) :
    (checkBoardWinner (jsSet ((jsGet s.boards bi).getD []) ci
        (some s.currentPlayer)) = none ∧
      (applyMoveCore s bi ci).mainBoard = s.mainBoard) ∨
    (∃ bw, checkBoardWinner (jsSet ((jsGet s.boards bi).getD []) ci
        (some s.currentPlayer)) = some bw ∧
      (applyMoveCore s bi ci).mainBoard = jsSet s.mainBoard bi (some bw)) := by
  unfold applyMoveCore
  dsimp only
  rcases hbw : checkBoardWinner (jsSet ((jsGet s.boards bi).getD []) ci
      (some s.currentPlayer)) with _ | bw
  · exact Or.inl ⟨rfl, rfl⟩
  · refine Or.inr ⟨bw, rfl, ?_⟩
    dsimp only
    rcases hgw : checkMainWinner (jsSet s.mainBoard bi (some bw)) with _ | gw <;>
      rfl

theorem moveStep_persists (room : Room) (pid : String) (bi ci now : Int)
    (r' : Room) (hok : handleMakeMove room pid bi ci now = .ok r') :
    ∀ i : Int, jsGet room.game.mainBoard i ≠ some none →
      jsGet r'.game.mainBoard i = jsGet room.game.mainBoard i := by
  obtain ⟨rfl, -, hmb, -⟩ := handleMakeMove_ok_elim hok
  intro i hne
  rcases applyMoveCore_mainBoard_cases room.game bi ci with ⟨-, hm⟩ | ⟨bw, -, hm⟩
  · rw [hm]
  · rw [hm]
    by_cases hij : bi.toNat = i.toNat
    · by_cases hi0 : 0 ≤ i
      · obtain ⟨hbi0, -⟩ := jsGet_bounds hmb
        have hbieq : bi = i := int_eq_of_toNat_eq hbi0 hi0 hij
        rw [hbieq] at hmb
        exact absurd hmb hne
      · rw [jsGet_of_not_bounds (fun hc => hi0 hc.1),
          jsGet_of_not_bounds (fun hc => hi0 hc.1)]
    · exact jsGet_jsSet_other hij

/-! ### Claim C10: out-of-range move requests -/

/-- C10: every move request to the room move handler whose `boardIndex` or
`cellIndex` lies outside `[0, 8]` is rejected with an error response (and,
the handler being an early return, no state is mutated): the out-of-bounds
lookup yields `undefined`, which looks non-empty, so the board-already-won
or cell-already-filled guard fires before any mutation. -/
theorem c10_oob_rejected :
    ∀ (room : Room) (pid : String) (bi ci now : Int),
      room.game.mainBoard.length ≤ 9 →
      (∀ b ∈ room.game.boards, b.length ≤ 9) →
      (bi < 0 ∨ 8 < bi ∨ ci < 0 ∨ 8 < ci) →
      ∃ e, handleMakeMove room pid bi ci now = .error e := by
  intro room pid bi ci now hmb hbs hoob
  unfold handleMakeMove
  dsimp only
  split_ifs with h1 h2 h3 h4 h5
  · exact ⟨_, rfl⟩
  · exact ⟨_, rfl⟩
  · exact ⟨_, rfl⟩
  · exact ⟨_, rfl⟩
  · exact ⟨_, rfl⟩
  exfalso
  rw [not_not] at h4 h5
  obtain ⟨hbi0, hbil⟩ := jsGet_bounds h4
  unfold jsGet2 at h5
  rcases hb : jsGet room.game.boards bi with _ | b
  · rw [hb] at h5; cases h5
  · rw [hb] at h5
    obtain ⟨hci0, hcil⟩ := jsGet_bounds h5
    have := hbs b (jsGet_mem hb)
    omega

/-- C10 witness: a concrete out-of-range request (boardIndex 9) on a fresh
room is rejected. -/
theorem c10_witness :
    ∃ e, handleMakeMove (createRoom "R" "a" 0) "a" 9 0 1 = .error e :=
  c10_oob_rejected (createRoom "R" "a" 0) "a" 9 0 1 (by decide) (by decide)
    (by decide)

/-! ### Claim C9: timestamp updates on room mutations -/

/-- C9 (amended): a join that adds a new player, an accepted move and an
accepted reset each set `lastUpdateTime` to the current time, but a join
that adds a spectator mutates the room WITHOUT updating `lastUpdateTime`. -/
theorem c9_mutation_timestamps :
    (∀ (room : Room) (pid : String) (now : Int),
        pid ∉ room.players → room.players.length < 2 →
        (handleJoinRoom room pid now).1.lastUpdateTime = now) ∧
    (∀ (room : Room) (pid : String) (bi ci now : Int) (r' : Room),
        handleMakeMove room pid bi ci now = .ok r' → r'.lastUpdateTime = now) ∧
    (∀ (room : Room) (pid : String) (now : Int) (r' : Room),
        handleResetGame room pid now = .ok r' → r'.lastUpdateTime = now) ∧
    (∀ (room : Room) (pid : String) (now : Int),
        pid ∉ room.players → 2 ≤ room.players.length →
        (handleJoinRoom room pid now).1.lastUpdateTime = room.lastUpdateTime) := by
  refine ⟨?_, ?_, ?_, ?_⟩
  · intro room pid now hmem hlen
    unfold handleJoinRoom
    rw [if_neg hmem, if_neg (by omega)]
  · intro room pid bi ci now r' h
    unfold handleMakeMove at h
    dsimp only at h
    split_ifs at h <;> (cases h; rfl)
  · intro room pid now r' h
    unfold handleResetGame at h
    split_ifs at h
    cases h
    rfl
  · intro room pid now hmem hlen
    unfold handleJoinRoom
    rw [if_neg hmem, if_pos hlen]
    split_ifs <;> rfl

/-- C9 witness: on a concrete fresh two-player room, a move by the host at
time 9 stamps the room with 9. -/
theorem c9_witness :
    (handleJoinRoom roomC9 "c" 99).1.lastUpdateTime = roomC9.lastUpdateTime :=
  c9_mutation_timestamps.2.2.2 roomC9 "c" 99 (by decide) (by decide)

/-- C9 counterexample: a spectator join is an accepted room mutation (the
spectator list grows and the response says `"spectator"`), yet
`lastUpdateTime` keeps its old value 5 instead of the current time 99. -/
theorem c9_spectator_counterexample :
    (handleJoinRoom roomC9 "c" 99).1.spectators = ["c"] ∧
    (handleJoinRoom roomC9 "c" 99).2 = "spectator" ∧
    (handleJoinRoom roomC9 "c" 99).1.lastUpdateTime = 5 := by decide

/-! ### Claim C6: failure conditions of the room move handler -/

/-- C6: the room move handler fails — returning a structured error value
and (being an early return before any mutation) leaving the room unchanged
— if and only if the requesting participant's symbol is not the current
player or the move is illegal in the §4.2 sense; otherwise it succeeds. -/
theorem c6_move_error_iff :
    ∀ (room : Room) (pid : String) (bi ci now : Int),
      room.players.length ≤ 2 →
      ((∃ e, handleMakeMove room pid bi ci now = .error e) ↔
        (playerSymbol room pid ≠ some room.game.currentPlayer ∨
          isLegal room.game bi ci = false)) := by
  intro room pid bi ci now hlen
  have hturn : (jsIndexOf room.players pid = -1 ∨
      (jsIndexOf room.players pid = 0 ∧ room.game.currentPlayer ≠ .X) ∨
      (jsIndexOf room.players pid = 1 ∧ room.game.currentPlayer ≠ .O)) ↔
      playerSymbol room pid ≠ some room.game.currentPlayer := by
    rcases jsIndexOf_cases room.players pid hlen with h | h | h <;>
      cases hcp : room.game.currentPlayer <;>
        simp [playerSymbol, h, hcp]
  unfold handleMakeMove
  dsimp only
  split_ifs with h1 h2 h3 h4 h5
  · exact ⟨fun _ => Or.inl (hturn.mp h1), fun _ => ⟨_, rfl⟩⟩
  · refine ⟨fun _ => Or.inr ?_, fun _ => ⟨_, rfl⟩⟩
    rw [isLegal_eq_false_iff]
    exact Or.inl h2
  · refine ⟨fun _ => Or.inr ?_, fun _ => ⟨_, rfl⟩⟩
    rw [isLegal_eq_false_iff]
    exact Or.inr (Or.inl ⟨h3.1, h3.2.2, Ne.symm h3.2.1⟩)
  · refine ⟨fun _ => Or.inr ?_, fun _ => ⟨_, rfl⟩⟩
    rw [isLegal_eq_false_iff]
    exact Or.inr (Or.inr (Or.inl h4))
  · refine ⟨fun _ => Or.inr ?_, fun _ => ⟨_, rfl⟩⟩
    rw [isLegal_eq_false_iff]
    exact Or.inr (Or.inr (Or.inr h5))
  · constructor
    · rintro ⟨e, he⟩
      cases he
    · intro hr
      exfalso
      rcases hr with hr | hr
      · exact h1 (hturn.mpr hr)
      · rw [isLegal_eq_false_iff] at hr
        rcases hr with hr | hr | hr | hr
        · exact h2 hr
        · exact h3 ⟨hr.1, Ne.symm hr.2.2, hr.2.1⟩
        · exact hr (not_not.mp h4)
        · exact hr (not_not.mp h5)

/-- C6 witness: the failure-iff-illegal equivalence instantiated on a fresh
room, the host and the legal move (4,4). -/
theorem c6_witness :
    (∃ e, handleMakeMove (createRoom "R" "a" 0) "a" 4 4 1 = .error e) ↔
      (playerSymbol (createRoom "R" "a" 0) "a" ≠
          some (createRoom "R" "a" 0).game.currentPlayer ∨
        isLegal (createRoom "R" "a" 0).game 4 4 = false) :=
  c6_move_error_iff (createRoom "R" "a" 0) "a" 4 4 1 (by decide)

/-! ### Claim C7: gameOver iff winner -/

/-- C7: for every room reachable from creation via joins, accepted moves
and accepted resets, `gameOver` is true exactly when `winner` is non-null. -/
theorem c7_gameOver_iff_winner :
    ∀ r : Room, Reachable r → (r.game.gameOver = true ↔ r.game.winner ≠ none) := by
  intro r hr
  induction hr with
  | create rid pid now => simp [createRoom, initialGameState]
  | join pid now _ ih =>
    rw [handleJoinRoom_game]
    exact ih
  | @move r r' pid bi ci now hR hok ih =>
    obtain ⟨rfl, hgo, -, -⟩ := handleMakeMove_ok_elim hok
    have hwin : r.game.winner = none := by
      by_contra hw
      rw [hgo] at ih
      exact absurd (ih.mpr hw) (by simp)
    exact applyMoveCore_gameOver_iff hgo hwin
  | reset pid now _ hok ih =>
    unfold handleResetGame at hok
    split_ifs at hok
    cases hok
    simp [initialGameState]

/-- C7 witness: the invariant instantiated at a freshly created room. -/
theorem c7_witness :
    ((createRoom "R" "a" 0).game.gameOver = true ↔
      (createRoom "R" "a" 0).game.winner ≠ none) :=
  c7_gameOver_iff_winner (createRoom "R" "a" 0) (Reachable.create "R" "a" 0)

/-! ### Claim C8: mainBoard entries agree with the evaluator and freeze -/

theorem replicate_none_inv :
    ∀ i : Int, jsGet (List.replicate 9 (none : MCell)) i = some none ∨
      jsGet (List.replicate 9 (none : MCell)) i = none ∨
      (∃ b, jsGet emptyBoards i = some b ∧
        jsGet (List.replicate 9 (none : MCell)) i = some (checkBoardWinner b)) := by
  intro i
  rcases h : jsGet (List.replicate 9 (none : MCell)) i with _ | x
  · exact Or.inr (Or.inl rfl)
  · left
    rw [List.eq_of_mem_replicate (jsGet_mem h)]

/-- C8: in every reachable room each `mainBoard` entry is either null,
out of range, or exactly `checkBoardWinner` of the corresponding sub-board;
and one accepted move never changes an already non-null entry (only the
full reset clears them, by re-installing the all-null board). -/
theorem c8_mainBoard_frozen :
    ∀ r : Room, Reachable r →
      (∀ i : Int,
        jsGet r.game.mainBoard i = some none ∨
        jsGet r.game.mainBoard i = none ∨
        (∃ b, jsGet r.game.boards i = some b ∧
          jsGet r.game.mainBoard i = some (checkBoardWinner b))) ∧
      (∀ (pid : String) (bi ci now : Int) (r' : Room),
        handleMakeMove r pid bi ci now = .ok r' →
        ∀ i : Int, jsGet r.game.mainBoard i ≠ some none →
          jsGet r'.game.mainBoard i = jsGet r.game.mainBoard i) := by
  intro r hr
  refine ⟨?_, fun pid bi ci now r' hok => moveStep_persists r pid bi ci now r' hok⟩
  induction hr with
  | create rid pid now => exact replicate_none_inv
  | join pid now _ ih =>
    rw [handleJoinRoom_game]
    exact ih
  | reset pid now _ hok ih =>
    unfold handleResetGame at hok
    split_ifs at hok
    cases hok
    exact replicate_none_inv
  | @move r r' pid bi ci now hR hok ih =>
    obtain ⟨rfl, -, hmb, hcell⟩ := handleMakeMove_ok_elim hok
    intro i
    dsimp only
    rw [applyMoveCore_boards]
    obtain ⟨hbi0, hbil⟩ := jsGet_bounds hmb
    rcases applyMoveCore_mainBoard_cases r.game bi ci with ⟨hbw, hm⟩ | ⟨bw, hbw, hm⟩
    · rw [hm]
      by_cases hij : bi.toNat = i.toNat
      · by_cases hi0 : 0 ≤ i
        · have hbieq : bi = i := int_eq_of_toNat_eq hbi0 hi0 hij
          rw [hbieq] at hmb
          exact Or.inl hmb
        · exact Or.inr (Or.inl (jsGet_of_not_bounds (fun hc => hi0 hc.1)))
      · rw [jsGet_jsSet_other hij]
        exact ih i
    · rw [hm]
      by_cases hij : bi.toNat = i.toNat
      · by_cases hi0 : 0 ≤ i
        · have hbieq : bi = i := int_eq_of_toNat_eq hbi0 hi0 hij
          subst hbieq
          right; right
          refine ⟨jsSet ((jsGet r.game.boards bi).getD []) ci
            (some r.game.currentPlayer), ?_, ?_⟩
          · have hbl : bi.toNat < r.game.boards.length := by
              unfold jsGet2 at hcell
              rcases hb : jsGet r.game.boards bi with _ | b
              · rw [hb] at hcell; cases hcell
              · exact (jsGet_bounds hb).2
            exact jsGet_jsSet_self hbi0 hbl
          · rw [jsGet_jsSet_self hbi0 hbil, hbw]
        · exact Or.inr (Or.inl (jsGet_of_not_bounds (fun hc => hi0 hc.1)))
      · rw [jsGet_jsSet_other hij, jsGet_jsSet_other hij]
        exact ih i

/-- C8 witness: the invariant instantiated at a freshly created room and
entry 4. -/
theorem c8_witness :
    jsGet (createRoom "R" "a" 0).game.mainBoard 4 = some none ∨
    jsGet (createRoom "R" "a" 0).game.mainBoard 4 = none ∨
    (∃ b, jsGet (createRoom "R" "a" 0).game.boards 4 = some b ∧
      jsGet (createRoom "R" "a" 0).game.mainBoard 4 = some (checkBoardWinner b)) :=
  (c8_mainBoard_frozen (createRoom "R" "a" 0) (Reachable.create "R" "a" 0)).1 4

/-! ### Claim C3: a line of three draws on the main board -/

theorem findTriple_eq_some {α : Type _} [DecidableEq α] {b : List (Option α)}
    {combos : List (Nat × Nat × Nat)} {v : α}
    (h : findTriple b combos = some v) :
    ∃ t ∈ combos, cellAt b t.1 = some v ∧ cellAt b t.2.1 = some v ∧
      cellAt b t.2.2 = some v := by
  induction combos with
  | nil => cases h
  | cons t rest ih =>
    obtain ⟨i, j, k⟩ := t
    unfold findTriple at h
    rcases hci : cellAt b i with _ | v'
    · rw [hci] at h
      obtain ⟨t', ht', hc⟩ := ih h
      exact ⟨t', List.mem_cons_of_mem _ ht', hc⟩
    · rw [hci] at h
      dsimp only at h
      split_ifs at h with hc
      · cases h
        exact ⟨(i, j, k), List.mem_cons_self _ _, hci, hc.1, hc.2⟩
      · obtain ⟨t', ht', hc'⟩ := ih h
        exact ⟨t', List.mem_cons_of_mem _ ht', hc'⟩

theorem findTriple_isSome_of_line {α : Type _} [DecidableEq α]
    {b : List (Option α)} {combos : List (Nat × Nat × Nat)}
    {t : Nat × Nat × Nat} {v : α} (ht : t ∈ combos)
    (h1 : cellAt b t.1 = some v) (h2 : cellAt b t.2.1 = some v)
    (h3 : cellAt b t.2.2 = some v) :
    findTriple b combos ≠ none := by
  induction combos with
  | nil => cases ht
  | cons hd rest ih =>
    obtain ⟨i, j, k⟩ := hd
    unfold findTriple
    rcases List.mem_cons.mp ht with heq | hmem
    · subst heq
      rw [h1]
      dsimp only
      rw [if_pos ⟨h2, h3⟩]
      simp
    · rcases hci : cellAt b i with _ | v'
      · exact ih hmem
      · dsimp only
        split_ifs
        · simp
        · exact ih hmem

theorem hasLine_iff {mb : MainBoard} {v : Status} :
    hasLine mb v = true ↔
      ∃ t ∈ WINNING_COMBINATIONS, cellAt mb t.1 = some v ∧
        cellAt mb t.2.1 = some v ∧ cellAt mb t.2.2 = some v := by
  unfold hasLine
  rw [List.any_eq_true]
  constructor
  · rintro ⟨t, ht, hc⟩
    simp only [decide_eq_true_eq] at hc
    exact ⟨t, ht, hc⟩
  · rintro ⟨t, ht, hc⟩
    exact ⟨t, ht, by simp only [decide_eq_true_eq]; exact hc⟩

theorem checkMainWinner_of_draw_line {mb : MainBoard}
    (hd : hasLine mb .draw = true) (hx : hasLine mb .X = false)
    (ho : hasLine mb .O = false) :
    checkMainWinner mb = some .draw := by
  obtain ⟨t, ht, h1, h2, h3⟩ := hasLine_iff.mp hd
  unfold checkMainWinner
  rcases hf : findTriple mb WINNING_COMBINATIONS with _ | w
  · exact absurd hf (findTriple_isSome_of_line ht h1 h2 h3)
  · obtain ⟨t', ht', hc1, hc2, hc3⟩ := findTriple_eq_some hf
    cases w with
    | X => exact absurd (hasLine_iff.mpr ⟨t', ht', hc1, hc2, hc3⟩) (by rw [hx]; simp)
    | O => exact absurd (hasLine_iff.mpr ⟨t', ht', hc1, hc2, hc3⟩) (by rw [ho]; simp)
    | draw => rfl

theorem applyMoveCore_win {s : GameState} {bi ci : Int} {bw gw : Status}
    (hbw : checkBoardWinner (jsSet ((jsGet s.boards bi).getD []) ci
      (some s.currentPlayer)) = some bw)
    (hgw : checkMainWinner (jsSet s.mainBoard bi (some bw)) = some gw) :
    (applyMoveCore s bi ci).gameOver = true ∧
      (applyMoveCore s bi ci).winner = some gw := by
  unfold applyMoveCore
  dsimp only
  rw [hbw]
  dsimp only
  rw [hgw]
  dsimp only
  split_ifs with h
  · simp at h
  · exact ⟨rfl, rfl⟩

/-- C3 (amended): the win/draw evaluator DOES report a line of three draws —
the first-match scan treats `"draw"` as a matchable non-empty value — but it
reports it as `draw`, never as a win for X or O; consequently a move whose
sub-board resolution completes such a line (with no X or O line present)
sets `gameOver := true` with `winner := draw`, even while unresolved
sub-boards remain.  The evaluator never turns a line of draws into a
non-draw winner. -/
theorem c3_draw_line_behavior :
    (∀ mb : MainBoard, hasLine mb .draw = true → hasLine mb .X = false →
      hasLine mb .O = false → checkMainWinner mb = some .draw) ∧
    (∀ (room : Room) (pid : String) (bi ci now : Int) (r' : Room),
      handleMakeMove room pid bi ci now = .ok r' →
      jsGet r'.game.mainBoard bi ≠ jsGet room.game.mainBoard bi →
      hasLine r'.game.mainBoard .draw = true →
      hasLine r'.game.mainBoard .X = false →
      hasLine r'.game.mainBoard .O = false →
      (∃ i, jsGet r'.game.mainBoard i = some none) →
      r'.game.gameOver = true ∧ r'.game.winner = some .draw) := by
  refine ⟨fun mb hd hx ho => checkMainWinner_of_draw_line hd hx ho, ?_⟩
  intro room pid bi ci now r' hok hne hd hx ho _
  obtain ⟨rfl, -, hmb, -⟩ := handleMakeMove_ok_elim hok
  dsimp only at hne hd hx ho ⊢
  rcases applyMoveCore_mainBoard_cases room.game bi ci with ⟨-, hm⟩ | ⟨bw, hbw, hm⟩
  · rw [hm] at hne
    exact absurd rfl hne
  · rw [hm] at hd hx ho
    exact applyMoveCore_win hbw (checkMainWinner_of_draw_line hd hx ho)

/-- C3 witness: the amended behavior on the concrete main board with draws
at 0, 1, 2 and everything else unresolved. -/
theorem c3_witness :
    checkMainWinner [some .draw, some .draw, some .draw,
      none, none, none, none, none, none] = some .draw :=
  c3_draw_line_behavior.1 _ (by decide) (by decide) (by decide)

/-- C3 counterexample: the claim as stated is false — the evaluator reports
the all-draw line `[0,1,2]` (returning `draw` on a board that is not full),
and X's legal move (2,8) in `roomC3`, which merely completes that line of
draws, sets `gameOver := true` even though sub-board 3 is still unresolved. -/
theorem c3_draw_line_counterexample :
    checkMainWinner [some .draw, some .draw, some .draw,
      none, none, none, none, none, none] = some .draw ∧
    isLegal roomC3.game 2 8 = true ∧
    ((handleMakeMove roomC3 "a" 2 8 9).toOption.map (fun r =>
      (r.game.gameOver, r.game.winner, jsGet r.game.mainBoard 3))) =
        some (true, some .draw, some none) := by decide

/-! ### Claim C5: routing of nextBoardIndex -/

theorem applyMoveCore_nextBoardIndex (s : GameState) (bi ci : Int) :
    (applyMoveCore s bi ci).nextBoardIndex =
      if jsGet (applyMoveCore s bi ci).mainBoard ci = some none then ci
      else -1 := rfl

/-- C5 (amended): through the ROOM driver, after every accepted move the
resulting `nextBoardIndex` equals `cellIndex` exactly when the POST-move
`mainBoard` entry at `cellIndex` is empty, and `-1` otherwise; and the
scenario holds in both drivers: from the empty board, X playing (4,4)
leaves `mainBoard[4]` empty, sets `nextBoardIndex` to 4 and makes O the
current player.  (The LOCAL driver instead computes the next board from the
PRE-move `mainBoard` and skips the update when the move ends the game — see
the counterexample.) -/
theorem c5_room_routing :
    (∀ (room : Room) (pid : String) (bi ci now : Int) (r' : Room),
      handleMakeMove room pid bi ci now = .ok r' →
      r'.game.nextBoardIndex =
        if jsGet r'.game.mainBoard ci = some none then ci else -1) ∧
    ((handleMove initialGameState 4 4).nextBoardIndex = 4 ∧
      jsGet (handleMove initialGameState 4 4).mainBoard 4 = some none ∧
      (handleMove initialGameState 4 4).currentPlayer = .O) ∧
    ((handleMakeMove (createRoom "R" "a" 0) "a" 4 4 1).toOption.map (fun r =>
        (r.game.nextBoardIndex, jsGet r.game.mainBoard 4, r.game.currentPlayer)) =
      some (4, some none, .O)) := by
  refine ⟨?_, by decide, by decide⟩
  intro room pid bi ci now r' hok
  obtain ⟨rfl, -, -, -⟩ := handleMakeMove_ok_elim hok
  exact applyMoveCore_nextBoardIndex room.game bi ci

/-- C5 witness: the room routing rule applied to the concrete accepted move
(4,4) on a fresh room. -/
theorem c5_witness :
    roomScn.game.nextBoardIndex =
      if jsGet roomScn.game.mainBoard 4 = some (none : MCell) then (4 : Int)
      else -1 :=
  c5_room_routing.1 (createRoom "R" "a" 0) "a" 4 4 1 roomScn (by rfl)

/-- C5 counterexample: in the reachable state `rm4.game` the move (4,4) is
legal and resolves sub-board 4, so the post-move `mainBoard[4]` is
non-empty; the claim then demands `nextBoardIndex = -1`, but the local
driver (which reads the PRE-move `mainBoard`) sets it to 4. -/
theorem c5_routing_counterexample :
    isLegal rm4.game 4 4 = true ∧
    jsGet (handleMove rm4.game 4 4).mainBoard 4 = some (some .X) ∧
    (handleMove rm4.game 4 4).nextBoardIndex = 4 := by decide

/-! ### Claim C2: the depth-0 leaf of minimax -/

/-- C2: the claim is right and the code is wrong.  At a depth-0 leaf the
search should return the heuristic score of the leaf's own simulated state,
but `evaluateBoard` closes over the component's render-time
`boards`/`mainBoard` — the ROOT position.  On `rootB2`/`rootM2` (one legal
move, (4,4), which wins sub-board 4 for X) a depth-1 search returns the
root's heuristic 0 at its leaf instead of the leaf state's heuristic 40. -/
theorem c2_leaf_evaluates_root :
    (minimax rootB2 rootM2 .X 1 true rootB2 rootM2 4 ⊥ ⊤).1 =
        toE (evaluateBoard rootB2 rootM2 .X) ∧
    evaluateBoard rootB2 rootM2 .X = 0 ∧
    evaluateBoard childB2 childM2 .X = 40 ∧
    (minimax rootB2 rootM2 .X 1 true rootB2 rootM2 4 ⊥ ⊤).2 = some (4, 4) ∧
    (minimax rootB2 rootM2 .X 1 true rootB2 rootM2 4 ⊥ ⊤).1 ≠
        toE (evaluateBoard childB2 childM2 .X) := by decide

/-! ### Claim C1: the two drivers compared -/

theorem checkMainWinner_ne_none_of_all {b : MainBoard}
    (h : b.all (fun c => c ≠ none) = true) : checkMainWinner b ≠ none := by
  unfold checkMainWinner
  rcases hf : findTriple b WINNING_COMBINATIONS with _ | w
  · rw [if_pos h]
    simp
  · simp

theorem all_ne_none_eq_false {mb : MainBoard} (h : (none : MCell) ∈ mb) :
    mb.all (fun c => c ≠ none) = false := by
  cases hall : mb.all (fun c => c ≠ none)
  · rfl
  · exfalso
    have := List.all_eq_true.mp hall none h
    simp at this

theorem jsIndexOf_pair_left (x y : String) : jsIndexOf [x, y] x = 0 := by
  unfold jsIndexOf
  rw [if_pos (List.mem_cons_self x [y])]
  simp [List.indexOf_cons_self]

theorem jsIndexOf_pair_right {x y : String} (h : x ≠ y) :
    jsIndexOf [x, y] y = 1 := by
  unfold jsIndexOf
  rw [if_pos (by simp)]
  have : [x, y].indexOf y = 1 := by
    rw [List.indexOf_cons_ne _ h, List.indexOf_cons_self]
  rw [this]
  rfl

theorem handleMakeMove_two_player_ok {s : GameState} {bi ci now lut : Int}
    {rid : String} {pX pO : String} {spect : List String}
    (hne : pX ≠ pO) (hleg : isLegal s bi ci = true) :
    handleMakeMove ⟨rid, [pX, pO], spect, s, lut⟩
        (if s.currentPlayer = .X then pX else pO) bi ci now =
      .ok ⟨rid, [pX, pO], spect, applyMoveCore s bi ci, now⟩ := by
  obtain ⟨hgo, hcond, hmb, hcell⟩ := isLegal_eq_true_iff.mp hleg
  have hg3 : ¬(s.nextBoardIndex ≠ -1 ∧ s.nextBoardIndex ≠ bi ∧
      jsGet s.mainBoard s.nextBoardIndex = some none) :=
    fun h => h.2.1 (hcond ⟨h.1, h.2.2⟩).symm
  unfold handleMakeMove
  dsimp only
  cases hcp : s.currentPlayer with
  | X =>
    rw [if_pos rfl, jsIndexOf_pair_left]
    rw [if_neg (by simp [hcp]), if_neg (by simp [hgo]), if_neg hg3,
      if_neg (not_not_intro hmb), if_neg (not_not_intro hcell)]
  | O =>
    rw [if_neg (show ¬(Player.O = Player.X) by simp), jsIndexOf_pair_right hne]
    rw [if_neg (show ¬((1 : Int) = -1 ∨ ((1 : Int) = 0 ∧ Player.O ≠ Player.X) ∨
        ((1 : Int) = 1 ∧ Player.O ≠ Player.O)) by simp),
      if_neg (by simp [hgo]), if_neg hg3,
      if_neg (not_not_intro hmb), if_neg (not_not_intro hcell)]

theorem applyMoveCore_vs_handleMove {s : GameState} {bi ci : Int}
    (hleg : isLegal s bi ci = true) :
    (applyMoveCore s bi ci).boards = (handleMove s bi ci).boards ∧
    (applyMoveCore s bi ci).mainBoard = (handleMove s bi ci).mainBoard ∧
    (applyMoveCore s bi ci).gameOver = (handleMove s bi ci).gameOver ∧
    (applyMoveCore s bi ci).winner = (handleMove s bi ci).winner ∧
    (applyMoveCore s bi ci).lastMove = (handleMove s bi ci).lastMove ∧
    ((handleMove s bi ci).gameOver = false →
      jsGet (handleMove s bi ci).mainBoard ci = jsGet s.mainBoard ci →
      applyMoveCore s bi ci = handleMove s bi ci) := by
  obtain ⟨hgo, hcond, hmb, hcell⟩ := isLegal_eq_true_iff.mp hleg
  have hg3 : ¬(s.nextBoardIndex ≠ -1 ∧ s.nextBoardIndex ≠ bi ∧
      jsGet s.mainBoard s.nextBoardIndex = some none) :=
    fun h => h.2.1 (hcond ⟨h.1, h.2.2⟩).symm
  unfold handleMove applyMoveCore
  rw [if_neg (by simp [hgo]), if_neg hg3, if_neg (not_not_intro hmb),
    if_neg (not_not_intro hcell)]
  dsimp only
  rcases hbw : checkBoardWinner (jsSet ((jsGet s.boards bi).getD []) ci
      (some s.currentPlayer)) with _ | bw <;>
    try rw [hbw]
  · dsimp only
    have hall : s.mainBoard.all (fun c => c ≠ none) = false :=
      all_ne_none_eq_false (jsGet_mem hmb)
    rw [hgo, hall]
    rw [if_neg (by simp)]
    exact ⟨rfl, rfl, rfl, rfl, rfl, fun _ _ => rfl⟩
  · dsimp only
    rcases hgw : checkMainWinner (jsSet s.mainBoard bi (some bw)) with _ | gw <;>
      try rw [hgw]
    · try dsimp only
      have hnall : (jsSet s.mainBoard bi (some bw)).all (fun c => c ≠ none) = false := by
        cases hall : (jsSet s.mainBoard bi (some bw)).all (fun c => c ≠ none)
        · rfl
        · exact absurd hgw (checkMainWinner_ne_none_of_all hall)
      rw [hgo, hnall]
      rw [if_neg (by simp)]
      refine ⟨rfl, rfl, rfl, rfl, rfl, ?_⟩
      intro _ hmbeq
      try dsimp only at hmbeq
      rw [hmbeq]
    · try dsimp only
      rw [if_neg (by simp)]
      refine ⟨rfl, rfl, rfl, rfl, rfl, ?_⟩
      intro hfalse _
      exact absurd hfalse (by simp)

/-- C1 (amended): for every state and legal move, applying the move through
the local driver and through the room driver (as the matching player of a
two-player room) yields game states that always agree on `boards`,
`mainBoard`, `gameOver`, `winner` and `lastMove`; and whenever the move
neither ends the game nor changes the `mainBoard` status at `cellIndex`
(the latter happens only when `boardIndex = cellIndex` and the move
resolves that sub-board), the two resulting game states are identical.
In the two excluded cases `currentPlayer`/`nextBoardIndex` can differ: the
local driver returns early on a game-ending move and routes via the
pre-move `mainBoard`. -/
theorem c1_drivers_agree :
    ∀ (s : GameState) (bi ci now lut : Int) (rid pX pO : String)
      (spect : List String), pX ≠ pO → isLegal s bi ci = true →
      ∃ r', handleMakeMove ⟨rid, [pX, pO], spect, s, lut⟩
          (if s.currentPlayer = .X then pX else pO) bi ci now = .ok r' ∧
        r'.game.boards = (handleMove s bi ci).boards ∧
        r'.game.mainBoard = (handleMove s bi ci).mainBoard ∧
        r'.game.gameOver = (handleMove s bi ci).gameOver ∧
        r'.game.winner = (handleMove s bi ci).winner ∧
        r'.game.lastMove = (handleMove s bi ci).lastMove ∧
        ((handleMove s bi ci).gameOver = false →
          jsGet (handleMove s bi ci).mainBoard ci = jsGet s.mainBoard ci →
          r'.game = handleMove s bi ci) := by
  intro s bi ci now lut rid pX pO spect hne hleg
  exact ⟨_, handleMakeMove_two_player_ok hne hleg,
    applyMoveCore_vs_handleMove hleg⟩

/-- C1 witness: the agreement instantiated on the empty board and the legal
move (4,4), where the two drivers coincide completely. -/
theorem c1_witness :
    ∃ r', handleMakeMove ⟨"R", ["a", "b"], [], initialGameState, 0⟩
        (if initialGameState.currentPlayer = .X then "a" else "b") 4 4 7 = .ok r' ∧
      r'.game.boards = (handleMove initialGameState 4 4).boards ∧
      r'.game.mainBoard = (handleMove initialGameState 4 4).mainBoard ∧
      r'.game.gameOver = (handleMove initialGameState 4 4).gameOver ∧
      r'.game.winner = (handleMove initialGameState 4 4).winner ∧
      r'.game.lastMove = (handleMove initialGameState 4 4).lastMove ∧
      ((handleMove initialGameState 4 4).gameOver = false →
        jsGet (handleMove initialGameState 4 4).mainBoard 4 =
          jsGet initialGameState.mainBoard 4 →
        r'.game = handleMove initialGameState 4 4) :=
  c1_drivers_agree initialGameState 4 4 7 0 "R" "a" "b" [] (by decide) (by decide)

/-- C1 counterexample: `rm4` is reached from a fresh room by four accepted
moves; the fifth move (4,4) is legal, resolves sub-board 4, and the two
drivers then disagree on `nextBoardIndex`: the room driver yields -1, the
local driver yields 4. -/
theorem c1_drivers_diverge :
    ((handleMakeMove roomStart "a" 4 1 1).bind (fun r =>
      (handleMakeMove r "b" 1 4 2).bind (fun r =>
        (handleMakeMove r "a" 4 7 3).bind (fun r =>
          handleMakeMove r "b" 7 4 4)))).toOption = some rm4 ∧
    isLegal rm4.game 4 4 = true ∧
    ((handleMakeMove rm4 "a" 4 4 5).toOption.map
        (fun r => r.game.nextBoardIndex)) = some (-1) ∧
    (handleMove rm4.game 4 4).nextBoardIndex = 4 := by decide

/-! ### Claim C4: alpha-beta pruning does not change the score -/

theorem toE_le_toE {a b : ℤ} : toE a ≤ toE b ↔ a ≤ b := by simp [toE]

theorem toE_lt_toE {a b : ℤ} : toE a < toE b ↔ a < b := by simp [toE]

theorem bot_lt_toE (a : ℤ) : (⊥ : EInt) < toE a := by simp [toE]

theorem toE_lt_top (a : ℤ) : toE a < (⊤ : EInt) := by
  rw [show ((⊤ : EInt)) = ((⊤ : WithTop ℤ) : WithBot (WithTop ℤ)) from rfl]
  exact WithBot.coe_lt_coe.mpr (WithTop.coe_lt_top a)

theorem toE_max (a b : ℤ) : toE (max a b) = max (toE a) (toE b) := by
  unfold toE
  push_cast
  rfl

theorem toE_min (a b : ℤ) : toE (min a b) = min (toE a) (toE b) := by
  unfold toE
  push_cast
  rfl

theorem maxE_cons (x : EInt) (l : List EInt) : maxE (x :: l) = max x (maxE l) := rfl

theorem minE_cons (x : EInt) (l : List EInt) : minE (x :: l) = min x (minE l) := rfl

theorem maxFold_stopped (ch : (Int × Int) → EInt → EInt) (be : EInt) :
    ∀ (ms : List (Int × Int)) (acc : EInt × Option (Int × Int) × EInt × Bool),
      acc.2.2.2 = true → maxFold ch be ms acc = acc := by
  intro ms
  induction ms with
  | nil => intro acc _; rfl
  | cons m rest ih =>
    intro acc hstop
    unfold maxFold
    rw [if_pos hstop]

theorem minFold_stopped (ch : (Int × Int) → EInt → EInt) (al : EInt) :
    ∀ (ms : List (Int × Int)) (acc : EInt × Option (Int × Int) × EInt × Bool),
      acc.2.2.2 = true → minFold ch al ms acc = acc := by
  intro ms
  induction ms with
  | nil => intro acc _; rfl
  | cons m rest ih =>
    intro acc hstop
    unfold minFold
    rw [if_pos hstop]

theorem ite_lt_eq_max (x y : EInt) : (if x < y then y else x) = max x y := by
  split_ifs with h
  · exact (max_eq_right h.le).symm
  · exact (max_eq_left (not_lt.mp h)).symm

theorem ite_lt_eq_min (x y : EInt) : (if y < x then y else x) = min x y := by
  split_ifs with h
  · exact (min_eq_right h.le).symm
  · exact (min_eq_left (not_lt.mp h)).symm

theorem maxFold_spec (ch : (Int × Int) → EInt → EInt) (be : EInt)
    (v : (Int × Int) → ℤ)
    (hch : ∀ m a, a < be → KM (ch m a) (v m) a be) :
    ∀ (ms : List (Int × Int)) (best a : EInt) (bmv : Option (Int × Int)),
      a < be → best ≤ a →
      best ≤ (maxFold ch be ms (best, bmv, a, false)).1 ∧
      (maxFold ch be ms (best, bmv, a, false)).1 ≤
        max a (maxE (ms.map (fun mv => toE (v mv)))) ∧
      ((maxFold ch be ms (best, bmv, a, false)).1 ≤ a →
        maxE (ms.map (fun mv => toE (v mv))) ≤
          (maxFold ch be ms (best, bmv, a, false)).1) ∧
      (a < (maxFold ch be ms (best, bmv, a, false)).1 →
        (maxFold ch be ms (best, bmv, a, false)).1 < be →
        maxE (ms.map (fun mv => toE (v mv))) ≤
          (maxFold ch be ms (best, bmv, a, false)).1) := by
  intro ms
  induction ms with
  | nil =>
    intro best a bmv hab hba
    exact ⟨le_refl _, le_trans hba (le_max_left _ _), fun _ => bot_le,
      fun _ _ => bot_le⟩
  | cons m rest ih =>
    intro best a bmv hab hba
    have hstep : maxFold ch be (m :: rest) (best, bmv, a, false) =
        maxFold ch be rest (max best (ch m a),
          (if best < ch m a then some m else bmv), max a (ch m a),
          decide (be ≤ max a (ch m a))) := by
      conv_lhs => unfold maxFold
      rw [if_neg Bool.false_ne_true]
      dsimp only
      rw [ite_lt_eq_max]
    simp only [List.map_cons, maxE_cons]
    by_cases hstop : be ≤ max a (ch m a)
    · have hber : be ≤ ch m a := by
        rcases le_total (ch m a) a with hra | har
        · rw [max_eq_left hra] at hstop
          exact absurd hstop (not_le.mpr hab)
        · rwa [max_eq_right har] at hstop
      have hrv : ch m a ≤ toE (v m) := (hch m a hab).2.1 hber
      rw [hstep, decide_eq_true hstop,
        maxFold_stopped ch be rest _ (by rfl)]
      dsimp only
      refine ⟨le_max_left _ _, ?_, ?_, ?_⟩
      · exact max_le (le_trans hba (le_max_left _ _))
          (le_trans (le_trans hrv (le_max_left _ _)) (le_max_right _ _))
      · intro hRa
        exact absurd (le_trans hber (le_trans (le_max_right best _) hRa))
          (not_le.mpr hab)
      · intro _ hRb
        exact absurd (le_trans hber (le_max_right best _)) (not_le.mpr hRb)
    · have ha'b : max a (ch m a) < be := not_le.mp hstop
      have hba' : max best (ch m a) ≤ max a (ch m a) :=
        max_le_max hba (le_refl _)
      obtain ⟨i', ii', iii', iv'⟩ := ih (max best (ch m a)) (max a (ch m a))
        (if best < ch m a then some m else bmv) ha'b hba'
      rw [hstep, decide_eq_false hstop]
      have hvm : ch m a ≤ max a (toE (v m)) := by
        rcases le_or_lt (ch m a) a with hra | har
        · exact le_trans hra (le_max_left _ _)
        · have hrb : ch m a < be := lt_of_le_of_lt (le_max_right a _) ha'b
          rw [(hch m a hab).2.2 har hrb]
          exact le_max_right _ _
      refine ⟨le_trans (le_max_left best _) i', ?_, ?_, ?_⟩
      · refine le_trans ii' (max_le (max_le (le_max_left _ _) ?_)
          (le_trans (le_max_right (toE (v m)) _) (le_max_right _ _)))
        exact le_trans hvm (max_le (le_max_left _ _)
          (le_trans (le_max_left _ _) (le_max_right _ _)))
      · intro hRa
        have hRa' : (maxFold ch be rest (max best (ch m a),
            (if best < ch m a then some m else bmv), max a (ch m a),
            false)).1 ≤ a := hRa
        have hrR : ch m a ≤ a :=
          le_trans (le_trans (le_max_right best _) i') hRa
        have hWrest := iii' (le_trans hRa (le_max_left a _))
        refine max_le ?_ hWrest
        exact le_trans ((hch m a hab).1 hrR)
          (le_trans (le_max_right best _) i')
      · intro haR hRb
        have hrR : ch m a ≤ (maxFold ch be rest (max best (ch m a),
            (if best < ch m a then some m else bmv), max a (ch m a),
            false)).1 := le_trans (le_max_right best _) i'
        have hvmR : toE (v m) ≤ (maxFold ch be rest (max best (ch m a),
            (if best < ch m a then some m else bmv), max a (ch m a),
            false)).1 := by
          rcases le_or_lt (ch m a) a with hra | har
          · exact le_trans ((hch m a hab).1 hra) hrR
          · have hrb : ch m a < be := lt_of_le_of_lt (le_max_right a _) ha'b
            rw [← (hch m a hab).2.2 har hrb]
            exact hrR
        refine max_le hvmR ?_
        rcases le_or_lt (maxFold ch be rest (max best (ch m a),
            (if best < ch m a then some m else bmv), max a (ch m a),
            false)).1 (max a (ch m a)) with hle | hgt
        · exact iii' hle
        · exact iv' hgt hRb

theorem minFold_spec (ch : (Int × Int) → EInt → EInt) (al : EInt)
    (v : (Int × Int) → ℤ)
    (hch : ∀ m b, al < b → KM (ch m b) (v m) al b) :
    ∀ (ms : List (Int × Int)) (best b : EInt) (bmv : Option (Int × Int)),
      al < b → b ≤ best →
      (minFold ch al ms (best, bmv, b, false)).1 ≤ best ∧
      min b (minE (ms.map (fun mv => toE (v mv)))) ≤
        (minFold ch al ms (best, bmv, b, false)).1 ∧
      (b ≤ (minFold ch al ms (best, bmv, b, false)).1 →
        (minFold ch al ms (best, bmv, b, false)).1 ≤
          minE (ms.map (fun mv => toE (v mv)))) ∧
      (al < (minFold ch al ms (best, bmv, b, false)).1 →
        (minFold ch al ms (best, bmv, b, false)).1 < b →
        (minFold ch al ms (best, bmv, b, false)).1 ≤
          minE (ms.map (fun mv => toE (v mv)))) := by
  intro ms
  induction ms with
  | nil =>
    intro best b bmv hab hbb
    exact ⟨le_refl _, le_trans (min_le_left _ _) hbb, fun _ => le_top,
      fun _ _ => le_top⟩
  | cons m rest ih =>
    intro best b bmv hab hbb
    have hstep : minFold ch al (m :: rest) (best, bmv, b, false) =
        minFold ch al rest (min best (ch m b),
          (if ch m b < best then some m else bmv), min b (ch m b),
          decide (min b (ch m b) ≤ al)) := by
      conv_lhs => unfold minFold
      rw [if_neg Bool.false_ne_true]
      dsimp only
      rw [ite_lt_eq_min]
    simp only [List.map_cons, minE_cons]
    by_cases hstop : min b (ch m b) ≤ al
    · have hral : ch m b ≤ al := by
        rcases le_total b (ch m b) with hbr | hrb
        · rw [min_eq_left hbr] at hstop
          exact absurd hstop (not_le.mpr hab)
        · rwa [min_eq_right hrb] at hstop
      have hvr : toE (v m) ≤ ch m b := (hch m b hab).1 hral
      rw [hstep, decide_eq_true hstop,
        minFold_stopped ch al rest _ (by rfl)]
      dsimp only
      refine ⟨min_le_left _ _, ?_, ?_, ?_⟩
      · exact le_min (le_trans (min_le_left _ _) hbb)
          (le_trans (min_le_right _ _)
            (le_trans (min_le_left _ _) hvr))
      · intro hbR
        exact absurd (le_trans hbR (le_trans (min_le_right best _) hral))
          (not_le.mpr hab)
      · intro haR _
        exact absurd (le_trans (min_le_right best _) hral) (not_le.mpr haR)
    · have hab' : al < min b (ch m b) := not_le.mp hstop
      have hbb' : min b (ch m b) ≤ min best (ch m b) :=
        min_le_min hbb (le_refl _)
      obtain ⟨i', ii', iii', iv'⟩ := ih (min best (ch m b)) (min b (ch m b))
        (if ch m b < best then some m else bmv) hab' hbb'
      rw [hstep, decide_eq_false hstop]
      have har : al < ch m b := lt_of_lt_of_le hab' (min_le_right b _)
      have hvm : min b (toE (v m)) ≤ ch m b := by
        rcases lt_or_le (ch m b) b with hrb | hbr
        · rw [← (hch m b hab).2.2 har hrb]
          exact min_le_right _ _
        · exact le_trans (min_le_left _ _) hbr
      refine ⟨le_trans i' (min_le_left best _), ?_, ?_, ?_⟩
      · refine le_trans (le_min (le_min (min_le_left _ _) ?_)
          (le_trans (min_le_right _ _) (min_le_right (toE (v m)) _))) ii'
        exact le_trans (le_min (min_le_left _ _)
          (le_trans (min_le_right _ _) (min_le_left _ _))) hvm
      · intro hbR
        have hWrest := iii' (le_trans (min_le_left b _) hbR)
        refine le_min ?_ hWrest
        have hRr : (minFold ch al rest (min best (ch m b),
            (if ch m b < best then some m else bmv), min b (ch m b),
            false)).1 ≤ ch m b := le_trans i' (min_le_right best _)
        rcases lt_or_le (ch m b) b with hrb | hbr
        · rw [← (hch m b hab).2.2 har hrb]
          exact hRr
        · exact le_trans hRr ((hch m b hab).2.1 hbr)
      · intro haR hRb
        have hRr : (minFold ch al rest (min best (ch m b),
            (if ch m b < best then some m else bmv), min b (ch m b),
            false)).1 ≤ ch m b := le_trans i' (min_le_right best _)
        refine le_min ?_ ?_
        · rcases lt_or_le (ch m b) b with hrb | hbr
          · rw [← (hch m b hab).2.2 har hrb]
            exact hRr
          · exact le_trans hRr ((hch m b hab).2.1 hbr)
        · rcases le_or_lt (min b (ch m b)) (minFold ch al rest
              (min best (ch m b), (if ch m b < best then some m else bmv),
              min b (ch m b), false)).1 with hle | hgt
          · exact iii' hle
          · exact iv' haR hgt

theorem foldl_max_toE (v : (Int × Int) → ℤ) :
    ∀ (l : List (Int × Int)) (z : ℤ),
      toE (l.foldl (fun acc mv => max acc (v mv)) z) =
        max (toE z) (maxE (l.map (fun mv => toE (v mv)))) := by
  intro l
  induction l with
  | nil =>
    intro z
    exact (max_eq_left bot_le).symm
  | cons x xs ih =>
    intro z
    simp only [List.foldl_cons, List.map_cons, maxE_cons]
    rw [ih (max z (v x)), toE_max, max_assoc]

theorem foldl_min_toE (v : (Int × Int) → ℤ) :
    ∀ (l : List (Int × Int)) (z : ℤ),
      toE (l.foldl (fun acc mv => min acc (v mv)) z) =
        min (toE z) (minE (l.map (fun mv => toE (v mv)))) := by
  intro l
  induction l with
  | nil =>
    intro z
    exact (min_eq_left le_top).symm
  | cons x xs ih =>
    intro z
    simp only [List.foldl_cons, List.map_cons, minE_cons]
    rw [ih (min z (v x)), toE_min, min_assoc]

theorem KM_refl (z : ℤ) (al be : EInt) : KM (toE z) z al be :=
  ⟨fun _ => le_refl _, fun _ => le_refl _, fun _ _ => rfl⟩

theorem minimax_KM (rootB : Boards) (rootM : MainBoard) (player : Player) :
    ∀ (fuel : Nat) (isMax : Bool) (nb : Boards) (nm : MainBoard) (nbi : Int)
      (al be : EInt), al < be →
      KM (minimax rootB rootM player fuel isMax nb nm nbi al be).1
        (fullMinimax rootB rootM player fuel isMax nb nm nbi) al be := by
  intro fuel
  induction fuel with
  | zero =>
    intro isMax nb nm nbi al be hab
    unfold minimax fullMinimax
    rcases hW : checkMainWinner nm with _ | st
    · exact KM_refl _ _ _
    · dsimp only
      split_ifs <;> exact KM_refl _ _ _
  | succ f ih =>
    intro isMax nb nm nbi al be hab
    unfold minimax fullMinimax
    rcases hW : checkMainWinner nm with _ | st
    · dsimp only
      rcases hmv : validMoves nb nm nbi with - | ⟨m, rest⟩
      · rw [if_pos rfl]
        exact KM_refl _ _ _
      · rw [if_neg (by simp)]
        cases isMax with
        | true =>
          rw [if_pos rfl]
          dsimp only
          obtain ⟨i1, i2, i3, i4⟩ := maxFold_spec
            (fun mv a => (minimax rootB rootM player f false
              (simApply nb nm player mv).1 (simApply nb nm player mv).2.1
              (simApply nb nm player mv).2.2 a be).1) be
            (fun mv => fullMinimax rootB rootM player f false
              (simApply nb nm player mv).1 (simApply nb nm player mv).2.1
              (simApply nb nm player mv).2.2)
            (fun mv a ha => ih false (simApply nb nm player mv).1
              (simApply nb nm player mv).2.1 (simApply nb nm player mv).2.2
              a be ha)
            (m :: rest) ⊥ al none hab bot_le
          have hWV : maxE ((m :: rest).map (fun mv =>
              toE (fullMinimax rootB rootM player f false
                (simApply nb nm player mv).1 (simApply nb nm player mv).2.1
                (simApply nb nm player mv).2.2))) =
              toE (rest.foldl (fun acc mv =>
                max acc (fullMinimax rootB rootM player f false
                  (simApply nb nm player mv).1 (simApply nb nm player mv).2.1
                  (simApply nb nm player mv).2.2))
                (fullMinimax rootB rootM player f false
                  (simApply nb nm player m).1 (simApply nb nm player m).2.1
                  (simApply nb nm player m).2.2)) := by
            rw [List.map_cons, maxE_cons, foldl_max_toE]
          rw [hWV] at i2 i3 i4
          refine ⟨fun hRa => i3 hRa, ?_, ?_⟩
          · intro hbeR
            rcases le_total (toE (rest.foldl (fun acc mv =>
                max acc (fullMinimax rootB rootM player f false
                  (simApply nb nm player mv).1 (simApply nb nm player mv).2.1
                  (simApply nb nm player mv).2.2))
                (fullMinimax rootB rootM player f false
                  (simApply nb nm player m).1 (simApply nb nm player m).2.1
                  (simApply nb nm player m).2.2))) al with hWa | haW
            · rw [max_eq_left hWa] at i2
              exact absurd (le_trans hbeR i2) (not_le.mpr hab)
            · rwa [max_eq_right haW] at i2
          · intro haR hRb
            refine le_antisymm ?_ (i4 haR hRb)
            rcases le_total (toE (rest.foldl (fun acc mv =>
                max acc (fullMinimax rootB rootM player f false
                  (simApply nb nm player mv).1 (simApply nb nm player mv).2.1
                  (simApply nb nm player mv).2.2))
                (fullMinimax rootB rootM player f false
                  (simApply nb nm player m).1 (simApply nb nm player m).2.1
                  (simApply nb nm player m).2.2))) al with hWa | haW
            · rw [max_eq_left hWa] at i2
              exact absurd i2 (not_le.mpr haR)
            · rwa [max_eq_right haW] at i2
        | false =>
          rw [if_neg (by simp : ¬((false : Bool) = true))]
          dsimp only
          obtain ⟨i1, i2, i3, i4⟩ := minFold_spec
            (fun mv b => (minimax rootB rootM player f true
              (simApply nb nm player.other mv).1
              (simApply nb nm player.other mv).2.1
              (simApply nb nm player.other mv).2.2 al b).1) al
            (fun mv => fullMinimax rootB rootM player f true
              (simApply nb nm player.other mv).1
              (simApply nb nm player.other mv).2.1
              (simApply nb nm player.other mv).2.2)
            (fun mv b hb => ih true (simApply nb nm player.other mv).1
              (simApply nb nm player.other mv).2.1
              (simApply nb nm player.other mv).2.2 al b hb)
            (m :: rest) ⊤ be none hab le_top
          have hWV : minE ((m :: rest).map (fun mv =>
              toE (fullMinimax rootB rootM player f true
                (simApply nb nm player.other mv).1
                (simApply nb nm player.other mv).2.1
                (simApply nb nm player.other mv).2.2))) =
              toE (rest.foldl (fun acc mv =>
                min acc (fullMinimax rootB rootM player f true
                  (simApply nb nm player.other mv).1
                  (simApply nb nm player.other mv).2.1
                  (simApply nb nm player.other mv).2.2))
                (fullMinimax rootB rootM player f true
                  (simApply nb nm player.other m).1
                  (simApply nb nm player.other m).2.1
                  (simApply nb nm player.other m).2.2)) := by
            rw [List.map_cons, minE_cons, foldl_min_toE]
          rw [hWV] at i2 i3 i4
          refine ⟨?_, fun hbeR => i3 hbeR, ?_⟩
          · intro hRa
            rcases le_total be (toE (rest.foldl (fun acc mv =>
                min acc (fullMinimax rootB rootM player f true
                  (simApply nb nm player.other mv).1
                  (simApply nb nm player.other mv).2.1
                  (simApply nb nm player.other mv).2.2))
                (fullMinimax rootB rootM player f true
                  (simApply nb nm player.other m).1
                  (simApply nb nm player.other m).2.1
                  (simApply nb nm player.other m).2.2))) with hbW | hWb
            · rw [min_eq_left hbW] at i2
              exact absurd (le_trans i2 hRa) (not_le.mpr hab)
            · rwa [min_eq_right hWb] at i2
          · intro haR hRb
            refine le_antisymm (i4 haR hRb) ?_
            rcases le_total be (toE (rest.foldl (fun acc mv =>
                min acc (fullMinimax rootB rootM player f true
                  (simApply nb nm player.other mv).1
                  (simApply nb nm player.other mv).2.1
                  (simApply nb nm player.other mv).2.2))
                (fullMinimax rootB rootM player f true
                  (simApply nb nm player.other m).1
                  (simApply nb nm player.other m).2.1
                  (simApply nb nm player.other m).2.2))) with hbW | hWb
            · rw [min_eq_left hbW] at i2
              exact absurd i2 (not_le.mpr hRb)
            · rwa [min_eq_right hWb] at i2
    · dsimp only
      split_ifs <;> exact KM_refl _ _ _

/-- C4: for every root position, root player, depth and side to move, the
score returned by the alpha-beta-pruned `minimax` (invoked, as the
component does, with the infinite window `(-Infinity, +Infinity)`) equals
the score of the unpruned full minimax over the same move tree with the
same terminal scores and leaf evaluation; pruning changes only the work
done, never the root score. -/
theorem c4_alphabeta_eq_full :
    ∀ (rootB : Boards) (rootM : MainBoard) (player : Player) (fuel : Nat)
      (isMax : Bool) (nb : Boards) (nm : MainBoard) (nbi : Int),
      (minimax rootB rootM player fuel isMax nb nm nbi ⊥ ⊤).1 =
        toE (fullMinimax rootB rootM player fuel isMax nb nm nbi) := by
  intro rootB rootM player fuel isMax nb nm nbi
  obtain ⟨h1, h2, h3⟩ := minimax_KM rootB rootM player fuel isMax nb nm nbi
    ⊥ ⊤ bot_lt_top
  by_cases hbot : (minimax rootB rootM player fuel isMax nb nm nbi ⊥ ⊤).1 ≤ ⊥
  · exact absurd (le_bot_iff.mp (le_trans (h1 hbot) hbot))
      (bot_lt_toE (fullMinimax rootB rootM player fuel isMax nb nm nbi)).ne'
  · by_cases htop : (⊤ : EInt) ≤
        (minimax rootB rootM player fuel isMax nb nm nbi ⊥ ⊤).1
    · exact absurd (top_le_iff.mp (le_trans htop (h2 htop)))
        (toE_lt_top (fullMinimax rootB rootM player fuel isMax nb nm nbi)).ne
    · exact h3 (not_le.mp hbot) (not_le.mp htop)
